import Mathlib

/-
Verification of the extraction-and-matching core of the junos-eol-mcp
repository (junos_eol_mcp.py, test_analyse_inventory.py).

The Python code is shallowly embedded: strings are Lean `String`s, Python
lists are Lean `List`s, the insertion-ordered Python dict used for the
match counters is an association list updated in place, and the two
failure modes of the pipeline (returned error values and raised
exceptions) are an `Except` value.  Python's `str.strip`, `str.split`,
`str.split(sep)` and the two regular expressions of the source are
re-implemented character by character below.  All definitions are
structural recursions so that concrete runs reduce inside the kernel.
-/

/-- Python whitespace (ASCII): the characters stripped by `str.strip()`,
separating fields for `str.split()` and matched by the regex class `\s`. -/
def isWs (c : Char) : Bool :=
  c = ' ' || c = '\t' || c = '\n' || c = '\r' || c = '\x0b' || c = '\x0c'

/-- Python `s.strip()`: remove leading and trailing whitespace. -/
def pyStrip (s : String) : String :=
  String.mk (((s.data.dropWhile isWs).reverse.dropWhile isWs).reverse)

/-- Helper for `pySplitWs`: accumulate the current (reversed) word. -/
def wordsAux : List Char → List Char → List (List Char)
  | [], acc => if acc.isEmpty then [] else [acc.reverse]
  | c :: rest, acc =>
    if isWs c then
      if acc.isEmpty then wordsAux rest [] else acc.reverse :: wordsAux rest []
    else wordsAux rest (c :: acc)

/-- Python `s.split()` (no separator): split on runs of whitespace,
discarding empty fields. -/
def pySplitWs (s : String) : List String :=
  (wordsAux s.data []).map String.mk

/-- Helper for `pySplitChar`. -/
def pySplitCharAux (sep : Char) : List Char → List Char → List (List Char)
  | [], cur => [cur.reverse]
  | c :: rest, cur =>
    if c = sep then cur.reverse :: pySplitCharAux sep rest []
    else pySplitCharAux sep rest (c :: cur)

/-- Python `s.split(sep)` for a one-character separator: split at every
occurrence, keeping empty pieces (so `"".split(",") == [""]`). -/
def pySplitChar (sep : Char) (s : String) : List String :=
  (pySplitCharAux sep s.data []).map String.mk

/-- Python `s.split('<')[0]`: the part of `s` strictly before the first
`<`, or all of `s` when no `<` occurs. -/
def beforeLt (s : String) : String :=
  String.mk (s.data.takeWhile (fun c => decide (c ≠ '<')))

/-- A character of the regex class `[A-Z0-9]`. -/
def isAZ09 (c : Char) : Bool :=
  ('A' ≤ c && c ≤ 'Z') || ('0' ≤ c && c ≤ '9')

/-- A character of the regex class `[A-Z0-9-]`. -/
def isAZ09dash (c : Char) : Bool :=
  isAZ09 c || c = '-'

/-- Model of `re.match(r'^[A-Z0-9]+-[A-Z0-9-]+$', s)`: one or more characters from
`[A-Z0-9]`, a literal hyphen, then one or more characters from
`[A-Z0-9-]`, anchored at both ends.  `[A-Z0-9]+` is greedy and `-`
is outside the class, so the leading block is exactly the maximal
`[A-Z0-9]` prefix. -/
def isFruToken (s : String) : Bool :=
  match s.data.dropWhile isAZ09 with
  | '-' :: b => !(s.data.takeWhile isAZ09).isEmpty && !b.isEmpty && b.all isAZ09dash
  | _ => false

/-- One iteration of the FRU loop (junos_eol_mcp.py lines 142-156):
skip blank lines, split the line on whitespace, take the last field,
keep it when it matches the FRU pattern. -/
def lineToken (line : String) : Option String :=
  if pyStrip line = "" then none
  else
    match (pySplitWs line).getLast? with
    | none => none
    | some last => if isFruToken last then some last else none

/-- The FRU extractor (junos_eol_mcp.py lines 134-156): `fru_list` after
the loop over `hw_inventory.split('\n')`. -/
def extractFrus (hw_inventory : String) : List String :=
  (pySplitChar '\n' hw_inventory).filterMap lineToken

/-- Value of `eol_components_formatted` for one fragment (junos_eol_mcp.py
lines 197-200): split `htmlContent` on `,` and append
`item.strip().split('<')[0]` for each piece, in order. -/
def identifierListCode (htmlContent : String) : List String :=
  (pySplitChar ',' htmlContent).foldl (fun acc item => acc ++ [beforeLt (pyStrip item)]) []

/-- The claim's reading of the identifier-list extraction: cut at the
first `<` first, then strip whitespace.  Used only to compare against
`identifierListCode`, which is what the code computes. -/
def identifierListSpec (htmlContent : String) : List String :=
  (pySplitChar ',' htmlContent).map (fun item => pyStrip (beforeLt item))

/-- Python dict lookup on the insertion-ordered association list that
models `eol_list`. -/
def dictGet (m : List (String × Nat)) (k : String) : Option Nat :=
  match m with
  | [] => none
  | (a, v) :: rest => if a = k then some v else dictGet rest k

/-- Model of `if fru not in eol_list: eol_list[fru] = 0` followed by
`eol_list[fru] += 1` (junos_eol_mcp.py lines 205-207): increment in
place, or append a fresh entry with count 1. -/
def bump : List (String × Nat) → String → List (String × Nat)
  | [], k => [(k, 1)]
  | (a, v) :: rest, k => if a = k then (a, v + 1) :: rest else (a, v) :: bump rest k

/-- The inner `for fru in fru_list` loop (junos_eol_mcp.py lines 201-207)
for one fragment's formatted identifier list. -/
def matchFragment (fru_list : List String) (ids : List String) (m : List (String × Nat)) :
    List (String × Nat) :=
  fru_list.foldl (fun acc fru => if fru ∈ ids then bump acc fru else acc) m

/-- Value of `eol_list` after the loop over all extracted fragments
(junos_eol_mcp.py lines 192-207).  A fragment is represented by its
`htmlContent` string, the only field of the component dict the loop
reads. -/
def eolList (fru_list : List String) (frags : List String) : List (String × Nat) :=
  frags.foldl (fun m frag => matchFragment fru_list (identifierListCode frag) m) []

/-- The `result` dict built at junos_eol_mcp.py lines 215-221. -/
structure MatchReport where
  eol_list : List (String × Nat)
  total_eol_components : Nat
  eol_parts_found : List String
  fru_list : List String
  eol_url : String
deriving Repr, DecidableEq

/-- The cross-reference matcher (junos_eol_mcp.py lines 191-221): count
matches per token over all fragments and assemble the result record. -/
def crossReference (fru_list : List String) (frags : List String) (eol_url : String) :
    MatchReport :=
  let e := eolList fru_list frags
  { eol_list := e
    total_eol_components := (e.map (fun p => p.2)).sum
    eol_parts_found := e.map (fun p => p.1)
    fru_list := fru_list
    eol_url := eol_url }

/-- Outcome of the page-fetch collaborator (junos_eol_mcp.py
lines 159-173): the page text, or the exception message caught at
line 174. -/
inductive FetchOutcome where
  | success (page : String)
  | failure (err : String)

/-- The one exception the modelled pipeline can raise. -/
inductive PyExc where
  | typeError
deriving Repr, DecidableEq

/-- The three returns of `analyse_inventory_internal`: the error JSON of
lines 175-182, the bare `return 1` of line 189, and the result JSON of
lines 223-226. -/
inductive ToolReturn where
  | errorReport (err : String) (fru_list : List String)
  | noTables
  | report (r : MatchReport)
deriving Repr, DecidableEq

/-- The value bound to `tables_eol` at junos_eol_mcp.py line 185.  In
that module `extract_sw_eol_tables` is declared `async` and the call is
not awaited, so the binding is a coroutine object, never a list. -/
inductive TablesEolValue where
  | coroutine
  | list (frags : List String)

/-- Python truthiness test `not tables_eol` (line 187): a coroutine
object is always truthy; a list is falsy exactly when empty. -/
def pyNot : TablesEolValue → Bool
  | .coroutine => false
  | .list frags => frags.isEmpty

/-- Model of `enumerate(tables_eol, 1)` (line 195): iterating a coroutine object
raises `TypeError`; iterating a list yields its elements. -/
def pyEnumerate : TablesEolValue → Except PyExc (List String)
  | .coroutine => .error .typeError
  | .list frags => .ok frags

/-- Model of `analyse_inventory_internal` (junos_eol_mcp.py lines 124-226) with
the network fetch factored out as a `FetchOutcome`.  The un-awaited
async call at line 185 is modelled by binding `tables_eol` to
`TablesEolValue.coroutine`. -/
def analyse_inventory_internal (hw_inventory : String) (fetch : FetchOutcome)
    (eol_url : String) : Except PyExc ToolReturn :=
  let fru_list := extractFrus hw_inventory
  match fetch with
  | .failure e => .ok (.errorReport e fru_list)
  | .success _page =>
    let tables_eol := TablesEolValue.coroutine
    if pyNot tables_eol then .ok .noTables
    else
      match pyEnumerate tables_eol with
      | .error exc => .error exc
      | .ok frags => .ok (.report (crossReference fru_list frags eol_url))

/-- The char list of the literal `"selector"`. -/
def LSel : List Char := ['\x22', 's', 'e', 'l', 'e', 'c', 't', 'o', 'r', '\x22']

/-- The char list of the literal `"sw-eol-table"`. -/
def LSwe : List Char :=
  ['\x22', 's', 'w', '-', 'e', 'o', 'l', '-', 't', 'a', 'b', 'l', 'e', '\x22']

/-- The char list of the literal `"properties"`. -/
def LProps : List Char := ['\x22', 'p', 'r', 'o', 'p', 'e', 'r', 't', 'i', 'e', 's', '\x22']

/-- The char list of the literal `"htmlContent"`. -/
def LHtml : List Char :=
  ['\x22', 'h', 't', 'm', 'l', 'C', 'o', 'n', 't', 'e', 'n', 't', '\x22']

/-- Consume one expected character. -/
def expectChar (c : Char) : List Char → Option (List Char)
  | d :: rest => if d = c then some rest else none
  | [] => none

/-- Consume an expected literal. -/
def expectLit : List Char → List Char → Option (List Char)
  | [], l => some l
  | c :: cs, d :: rest => if d = c then expectLit cs rest else none
  | _ :: _, [] => none

/-- Consume the regex `\s*` (greedy, deterministic because every `\s*`
in the pattern is followed by a non-whitespace literal). -/
def skipWs (l : List Char) : List Char := l.dropWhile isWs

/-- Consume `\s*` then one expected character. -/
def afterChar (c : Char) (l : List Char) : Option (List Char) :=
  expectChar c (skipWs l)

/-- Consume `\s*` then an expected literal. -/
def afterLit (lit : List Char) (l : List Char) : Option (List Char) :=
  expectLit lit (skipWs l)

/-- The fixed front of the extraction pattern (junos_eol_mcp.py line 43):
`\{\s*"selector"\s*:\s*"sw-eol-table"\s*,\s*"properties"\s*:\s*\{`. -/
def matchHead (l : List Char) : Option (List Char) :=
  (expectChar '\x7b' l).bind fun l1 =>
  (afterLit LSel l1).bind fun l2 =>
  (afterChar ':' l2).bind fun l3 =>
  (afterLit LSwe l3).bind fun l4 =>
  (afterChar ',' l4).bind fun l5 =>
  (afterLit LProps l5).bind fun l6 =>
  (afterChar ':' l6).bind fun l7 =>
  afterChar '\x7b' l7

/-- The character class `[^']`. -/
def notQuote (c : Char) : Bool := decide (c ≠ '\x27')

/-- The character class `[^}]`. -/
def notBrace (c : Char) : Bool := decide (c ≠ '\x7d')

/-- The back of the pattern after the `[^}]*` bridge:
`"htmlContent"\s*:\s*'([^']*)'\s*\}\s*\}`.  The capture `[^']*` is
deterministic: it is everything up to the next single quote. -/
def matchTail (l : List Char) : Option (List Char × List Char) :=
  (expectLit LHtml l).bind fun l1 =>
  (afterChar ':' l1).bind fun l2 =>
  (afterChar '\x27' l2).bind fun l3 =>
  (expectChar '\x27' (l3.dropWhile notQuote)).bind fun l4 =>
  (afterChar '\x7d' l4).bind fun l5 =>
  (afterChar '\x7d' l5).map fun l6 => (l3.takeWhile notQuote, l6)

/-- The greedy `[^}]*` bridge: try the longest brace-free gap first and
back off, exactly as the backtracking regex engine does. -/
def bridge (l : List Char) : Option (List Char × List Char) :=
  ((List.range ((l.takeWhile notBrace).length + 1)).reverse).findSome?
    fun d => matchTail (l.drop d)

/-- One attempt of the full pattern at the head of `l`, returning the
captured `htmlContent` and the unconsumed rest. -/
def matchAt (l : List Char) : Option (List Char × List Char) :=
  (matchHead l).bind bridge

/-- Model of the `re.finditer` scan: try each position left to right and continue
after the end of every match (matches never overlap).  `fuel` only
bounds the recursion; every step consumes at least one character. -/
def scanAux : Nat → List Char → List (List Char)
  | 0, _ => []
  | _ + 1, [] => []
  | fuel + 1, ch :: rest =>
    match matchAt (ch :: rest) with
    | some (c, after) => c :: scanAux fuel after
    | none => scanAux fuel rest

/-- Model of `extract_sw_eol_tables` (junos_eol_mcp.py lines 29-69 and
test_analyse_inventory.py lines 15-55): every component is returned as
its captured `htmlContent` string, the only varying field of the
component dict the code builds. -/
def extract_sw_eol_tables (content : String) : List String :=
  (scanAux (content.data.length + 1) content.data).map String.mk

/-- All characters are whitespace. -/
def WsL (w : List Char) : Prop := ∀ c ∈ w, isWs c = true

/-- Declarative reading of the extraction regex: `m` is one complete
instance of the pattern whose captured `htmlContent` is `c`. -/
def Occurrence (m c : List Char) : Prop :=
  ∃ w1 w2 w3 w4 w5 w6 w7 gap w8 w9 w10 w11 : List Char,
    m = '\x7b' :: (w1 ++ (LSel ++ (w2 ++ (':' :: (w3 ++ (LSwe ++ (w4 ++ (',' ::
      (w5 ++ (LProps ++ (w6 ++ (':' :: (w7 ++ ('\x7b' :: (gap ++ (LHtml ++
      (w8 ++ (':' :: (w9 ++ ('\x27' :: (c ++ ('\x27' :: (w10 ++ ('\x7d' ::
      (w11 ++ ['\x7d'])))))))))))))))))))))))))
    ∧ WsL w1 ∧ WsL w2 ∧ WsL w3 ∧ WsL w4 ∧ WsL w5 ∧ WsL w6 ∧ WsL w7
    ∧ WsL w8 ∧ WsL w9 ∧ WsL w10 ∧ WsL w11
    ∧ (∀ x ∈ gap, x ≠ '\x7d') ∧ (∀ x ∈ c, x ≠ '\x27')

/-- Some instance of the pattern starts exactly at the head of `l`. -/
def PatternAt (l : List Char) : Prop :=
  ∃ m c rest, l = m ++ rest ∧ Occurrence m c

/-- Relation `FindAll l cs` : `cs` are captures of non-overlapping pattern
instances appearing in `l` in order of first character position, each
chosen at the leftmost position where any instance starts, and no
instance starts after the last one ends. -/
inductive FindAll : List Char → List (List Char) → Prop where
  | nil (l : List Char) : (∀ i, ¬ PatternAt (l.drop i)) → FindAll l []
  | cons (g m rest c : List Char) (cs : List (List Char)) :
      (∀ i < g.length, ¬ PatternAt ((g ++ (m ++ rest)).drop i)) →
      Occurrence m c → FindAll rest cs → FindAll (g ++ (m ++ rest)) (c :: cs)

/-- A well-formed single-occurrence page around an `htmlContent` value,
in the exact shape the extraction pattern describes. -/
def mkOccPage (v : String) : String :=
  "\x7b\x22selector\x22: \x22sw-eol-table\x22, \x22properties\x22: \x7b\x22htmlContent\x22: \x27"
    ++ v ++ "\x27\x7d\x7d"

/-- A page whose only occurrence has a `\x7d` inside the properties
object before the `htmlContent` field. -/
def bracePage : String :=
  "\x7b\x22selector\x22: \x22sw-eol-table\x22, \x22properties\x22: \x7b\x22x\x22: \x7b\x7d, \x22htmlContent\x22: \x27A\x27\x7d\x7d"

/-- Page `bracePage` with the offending inner braces replaced by `1`. -/
def bracePageFixed : String :=
  "\x7b\x22selector\x22: \x22sw-eol-table\x22, \x22properties\x22: \x7b\x22x\x22: 1, \x22htmlContent\x22: \x27A\x27\x7d\x7d"

/-- A forest of parsed markup nodes in first-child/next-sibling form,
the shape BeautifulSoup hands to `parse_eol_table_html`.  (The library
call `BeautifulSoup(html_content, 'html.parser')` itself is an external
collaborator; the repository's logic starts from the parsed tree.) -/
inductive HDoc where
  | hnil
  | htext (s : String) (sib : HDoc)
  | helem (tag : String) (attrs : List (String × String)) (children : HDoc) (sib : HDoc)
deriving Repr, DecidableEq

/-- An element, as returned by `find`/`find_all`: tag, attributes and
children forest. -/
abbrev Elem := String × List (String × String) × HDoc

/-- All descendant elements of a forest in document order. -/
def descElems : HDoc → List Elem
  | .hnil => []
  | .htext _ sib => descElems sib
  | .helem t a c sib => (t, a, c) :: (descElems c ++ descElems sib)

/-- All text fragments of a forest in document order. -/
def textsOf : HDoc → List String
  | .hnil => []
  | .htext s sib => s :: textsOf sib
  | .helem _ _ c sib => textsOf c ++ textsOf sib

/-- BeautifulSoup `node.find(tag)`: first descendant element with the
tag, in document order. -/
def findTag (tag : String) (c : HDoc) : Option Elem :=
  ((descElems c).filter (fun e => decide (e.1 = tag))).head?

/-- BeautifulSoup `node.find_all(tag)`: all descendant elements with the
tag, in document order. -/
def findAllTag (tag : String) (c : HDoc) : List Elem :=
  (descElems c).filter (fun e => decide (e.1 = tag))

/-- BeautifulSoup `node.get_text(strip=True)`: strip each text fragment
and concatenate. -/
def getText (e : Elem) : String :=
  String.join ((textsOf e.2.2).map pyStrip)

/-- BeautifulSoup `tag.get(attr, default)`. -/
def attrGet (e : Elem) (key dflt : String) : String :=
  (((e.2.1).find? (fun p => decide (p.1 = key))).map (fun p => p.2)).getD dflt

/-- A cell of a parsed row: plain text, or the structured link record of
junos_eol_mcp.py lines 111-115. -/
inductive CellValue where
  | str (s : String)
  | link (text url title : String)
deriving Repr, DecidableEq

/-- Model of `row_dict[header] = value`: Python dict assignment on the
insertion-ordered association list. -/
def dictSetCell : List (String × CellValue) → String → CellValue → List (String × CellValue)
  | [], k, v => [(k, v)]
  | (a, w) :: rest, k, v =>
    if a = k then (a, v) :: rest else (a, w) :: dictSetCell rest k v

/-- The cell conversion of junos_eol_mcp.py lines 109-117: a structured
link record when the cell contains an `a` element, its trimmed text
otherwise. -/
def cellValue (td : Elem) : CellValue :=
  match findTag "a" td.2.2 with
  | some link => .link (getText td) (attrGet link "href" "") (attrGet link "title" "")
  | none => .str (getText td)

/-- The header extraction of junos_eol_mcp.py lines 88-94: the trimmed
texts of the `th` cells of the first `tr` of the table's `thead`, or no
named columns at all when either is missing. -/
def tableHeaders (table : Elem) : List String :=
  match findTag "thead" table.2.2 with
  | none => []
  | some thead =>
    match findTag "tr" thead.2.2 with
    | none => []
    | some hrow => (findAllTag "th" hrow.2.2).map getText

/-- The per-row loop of junos_eol_mcp.py lines 100-117: align each `td`
with the header of the same index, dropping cells beyond the header
count. -/
def rowOfCells (headers : List String) (tr : Elem) : List (String × CellValue) :=
  (findAllTag "td" tr.2.2).enum.foldl (fun row cell =>
    if cell.1 < headers.length then
      dictSetCell row (headers.getD cell.1 "") (cellValue cell.2)
    else row) []

/-- Model of `parse_eol_table_html` (junos_eol_mcp.py lines 71-122 and
test_analyse_inventory.py lines 58-109) applied to the parsed tree of
the fragment's `htmlContent`. -/
def parse_eol_table_html (doc : HDoc) : List (List (String × CellValue)) :=
  match findTag "table" doc with
  | none => []
  | some table =>
    match findTag "tbody" table.2.2 with
    | none => []
    | some tbody =>
      ((findAllTag "tr" tbody.2.2).map (rowOfCells (tableHeaders table))).filter
        (fun row => decide (row ≠ []))

/-- The table of the spec's 3b example: headers `Model`, `Date`, one body
row `CHAS-MX104-S`, `2020-01-01`. -/
def sampleTable : HDoc :=
  .helem "table" []
    (.helem "thead" []
      (.helem "tr" []
        (.helem "th" [] (.htext "Model" .hnil)
          (.helem "th" [] (.htext "Date" .hnil) .hnil)) .hnil)
      (.helem "tbody" []
        (.helem "tr" []
          (.helem "td" [] (.htext "CHAS-MX104-S" .hnil)
            (.helem "td" [] (.htext "2020-01-01" .hnil) .hnil)) .hnil)
        .hnil))
    .hnil

/-- The same table with an empty body section. -/
def emptyBodyTable : HDoc :=
  .helem "table" []
    (.helem "thead" []
      (.helem "tr" []
        (.helem "th" [] (.htext "Model" .hnil)
          (.helem "th" [] (.htext "Date" .hnil) .hnil)) .hnil)
      (.helem "tbody" [] .hnil .hnil))
    .hnil

/-- Add `n` matches to an optional counter: absent stays absent only when
nothing is added. -/
def optAdd : Option Nat → Nat → Option Nat
  | o, 0 => o
  | none, n + 1 => some (n + 1)
  | some v, n + 1 => some (v + (n + 1))

/-- Declarative reading of the anchored FRU regex
`^[A-Z0-9]+-[A-Z0-9-]+$`: a nonempty `[A-Z0-9]` block, a hyphen, and a
nonempty `[A-Z0-9-]` block covering the whole string. -/
def FruGrammar (s : String) : Prop :=
  ∃ a b : List Char, s.data = a ++ '-' :: b ∧ a ≠ []
    ∧ (∀ c ∈ a, isAZ09 c = true) ∧ b ≠ [] ∧ (∀ c ∈ b, isAZ09dash c = true)

theorem optAdd_zero (o : Option Nat) : optAdd o 0 = o := by
  cases o <;> rfl

theorem optAdd_none (n : Nat) : optAdd none n = if n = 0 then none else some n := by
  cases n <;> simp [optAdd]

theorem optAdd_assoc (o : Option Nat) (a b : Nat) :
    optAdd (optAdd o a) b = optAdd o (a + b) := by
  cases o <;> cases a <;> cases b <;> simp [optAdd] <;> omega

theorem dictGet_bump (m : List (String × Nat)) (j k : String) :
    dictGet (bump m j) k = if j = k then some ((dictGet m k).getD 0 + 1) else dictGet m k := by
  induction m with
  | nil => by_cases h : j = k <;> simp [bump, dictGet, h]
  | cons p rest ih =>
    obtain ⟨a, v⟩ := p
    by_cases haj : a = j
    · subst haj
      by_cases hak : a = k
      · subst hak
        simp [bump, dictGet]
      · simp [bump, dictGet, hak]
    · by_cases hak : a = k
      · subst hak
        have hja : ¬ j = a := fun h => haj h.symm
        simp [bump, dictGet, haj, hja]
      · simp [bump, dictGet, haj, hak, ih]

theorem dictGet_matchFragment (fl ids : List String) (m : List (String × Nat)) (k : String) :
    dictGet (matchFragment fl ids m) k
      = optAdd (dictGet m k) (if k ∈ ids then fl.count k else 0) := by
  induction fl generalizing m with
  | nil => simp [matchFragment, optAdd_zero]
  | cons fru fl ih =>
    have step : matchFragment (fru :: fl) ids m
        = matchFragment fl ids (if fru ∈ ids then bump m fru else m) := by
      simp [matchFragment]
    rw [step, ih]
    by_cases hfru : fru ∈ ids
    · rw [if_pos hfru, dictGet_bump]
      by_cases hk : fru = k
      · subst hk
        rw [if_pos rfl, if_pos hfru, if_pos hfru]
        have hcount : (fru :: fl).count fru = fl.count fru + 1 := by
          simp [List.count_cons]
        rw [hcount]
        cases ho : dictGet m fru with
        | none => cases hn : fl.count fru <;> simp [optAdd] <;> omega
        | some v => cases hn : fl.count fru <;> simp [optAdd] <;> omega
      · rw [if_neg hk]
        have hcount : (fru :: fl).count k = fl.count k := by
          simp [List.count_cons, beq_iff_eq, hk]
        rw [hcount]
    · rw [if_neg hfru]
      by_cases hkids : k ∈ ids
      · have hk : fru ≠ k := fun h => hfru (h ▸ hkids)
        have hcount : (fru :: fl).count k = fl.count k := by
          simp [List.count_cons, beq_iff_eq, hk]
        rw [hcount]
      · simp [hkids]

theorem dictGet_eolList_aux (fl : List String) (frags : List String)
    (m : List (String × Nat)) (k : String) :
    dictGet (frags.foldl (fun acc frag => matchFragment fl (identifierListCode frag) acc) m) k
      = optAdd (dictGet m k)
          (fl.count k * frags.countP (fun frag => decide (k ∈ identifierListCode frag))) := by
  induction frags generalizing m with
  | nil => simp [optAdd_zero]
  | cons f fs ih =>
    rw [List.foldl_cons, ih, dictGet_matchFragment, optAdd_assoc]
    congr 1
    rw [List.countP_cons]
    rcases Decidable.em (k ∈ identifierListCode f) with h | h
    · rw [if_pos h, decide_eq_true h, if_pos rfl]
      ring
    · rw [if_neg h, decide_eq_false h, if_neg (by simp)]
      simp

/-- C1 (amended): the count recorded for a token is the number of
occurrences of that token in the FRU token sequence multiplied by the
number of fragments whose derived identifier list contains it — the
counter is incremented once per (token instance, fragment) pair, so
repetitions of the token in the input multiply the count; the token is
absent exactly when that product is zero. -/
theorem C1_count_formula (fru_list frags : List String) (k : String) :
    dictGet (eolList fru_list frags) k
      = (if fru_list.count k
            * frags.countP (fun frag => decide (k ∈ identifierListCode frag)) = 0
         then none
         else some (fru_list.count k
            * frags.countP (fun frag => decide (k ∈ identifierListCode frag)))) := by
  have h := dictGet_eolList_aux fru_list frags [] k
  have hnil : dictGet [] k = none := rfl
  rw [hnil, optAdd_none] at h
  exact h

/-- C1 counterexample: with the token repeated twice in the FRU sequence
and a single fragment containing it, the recorded count is 2, while the
number of fragments whose identifier list contains the token is 1. -/
theorem C1_counterexample :
    dictGet (eolList ["CHAS-MX104-S", "CHAS-MX104-S"] ["CHAS-MX104-S"]) "CHAS-MX104-S"
        = some 2
    ∧ (["CHAS-MX104-S"].countP
        (fun frag => decide ("CHAS-MX104-S" ∈ identifierListCode frag))) = 1
    ∧ (2 : Nat) ≠ 1 := by
  exact ⟨by rfl, by rfl, by decide⟩

theorem foldl_push_eq_map (f : String → String) (l : List String) (acc : List String) :
    l.foldl (fun a x => a ++ [f x]) acc = acc ++ l.map f := by
  induction l generalizing acc with
  | nil => simp
  | cons x xs ih => simp [ih]

/-- C2 (amended): identifier-list extraction splits on `,` and maps each
piece to: strip leading and trailing whitespace first, then take the
substring strictly before the first `<`; split order is preserved and
empty results are kept.  The spec's worked example is unaffected by the
order of the two steps. -/
theorem C2_identifier_extraction :
    (∀ htmlContent : String,
      identifierListCode htmlContent
        = (pySplitChar ',' htmlContent).map (fun item => beforeLt (pyStrip item)))
    ∧ identifierListCode "CHAS-MX104-S<a>foo</a>, PWR-MX104-DC-S<br>"
        = ["CHAS-MX104-S", "PWR-MX104-DC-S"] := by
  constructor
  · intro htmlContent
    simpa [identifierListCode] using
      foldl_push_eq_map (fun item => beforeLt (pyStrip item)) (pySplitChar ',' htmlContent) []
  · rfl

/-- C2 counterexample: on the piece `AB-1 <x` the code strips first and
then cuts at `<`, keeping the space before `<`; cutting first and then
stripping — as the claim states — would remove it. -/
theorem C2_counterexample :
    identifierListCode "AB-1 <x" ≠ identifierListSpec "AB-1 <x"
    ∧ identifierListCode "AB-1 <x" = ["AB-1 "]
    ∧ identifierListSpec "AB-1 <x" = ["AB-1"] := by
  exact ⟨by decide, by rfl, by rfl⟩

theorem mem_bump (m : List (String × Nat)) (k : String) (p : String × Nat)
    (hp : p ∈ bump m k) : (p.1 = k ∧ 1 ≤ p.2) ∨ p ∈ m := by
  induction m with
  | nil =>
    simp [bump] at hp
    subst hp
    exact Or.inl ⟨rfl, Nat.le_refl 1⟩
  | cons q rest ih =>
    obtain ⟨a, v⟩ := q
    by_cases h : a = k
    · subst h
      simp only [bump, if_pos rfl] at hp
      rcases List.mem_cons.mp hp with rfl | hp
      · exact Or.inl ⟨rfl, Nat.le_add_left 1 v⟩
      · exact Or.inr (List.mem_cons_of_mem _ hp)
    · simp only [bump, if_neg h] at hp
      rcases List.mem_cons.mp hp with rfl | hp
      · exact Or.inr (List.mem_cons_self _ _)
      · rcases ih hp with hl | hr
        · exact Or.inl hl
        · exact Or.inr (List.mem_cons_of_mem _ hr)

theorem matchFragment_inv (FL : List String) (ids : List String) :
    ∀ (fl : List String) (m : List (String × Nat)),
      (∀ fru ∈ fl, fru ∈ FL) → (∀ p ∈ m, p.1 ∈ FL ∧ 1 ≤ p.2) →
      ∀ p ∈ matchFragment fl ids m, p.1 ∈ FL ∧ 1 ≤ p.2 := by
  intro fl
  induction fl with
  | nil => intro m _ hm; exact hm
  | cons fru fl ih =>
    intro m hfl hm
    have step : matchFragment (fru :: fl) ids m
        = matchFragment fl ids (if fru ∈ ids then bump m fru else m) := by
      simp [matchFragment]
    rw [step]
    refine ih _ (fun x hx => hfl x (List.mem_cons_of_mem _ hx)) ?_
    by_cases h : fru ∈ ids
    · rw [if_pos h]
      intro p hp
      rcases mem_bump m fru p hp with ⟨h1, h2⟩ | hp'
      · exact ⟨h1 ▸ hfl fru (List.mem_cons_self _ _), h2⟩
      · exact hm p hp'
    · rw [if_neg h]
      exact hm

theorem eolList_inv (fl frags : List String) :
    ∀ p ∈ eolList fl frags, p.1 ∈ fl ∧ 1 ≤ p.2 := by
  have aux : ∀ (fs : List String) (m : List (String × Nat)),
      (∀ p ∈ m, p.1 ∈ fl ∧ 1 ≤ p.2) →
      ∀ p ∈ fs.foldl (fun acc frag => matchFragment fl (identifierListCode frag) acc) m,
        p.1 ∈ fl ∧ 1 ≤ p.2 := by
    intro fs
    induction fs with
    | nil => intro m hm; simpa using hm
    | cons f fs ih =>
      intro m hm
      rw [List.foldl_cons]
      exact ih _ (matchFragment_inv fl (identifierListCode f) fl m (fun _ h => h) hm)
  exact aux frags [] (by simp)

/-- C7: every match report built by the matcher has its count-map keys
among the input FRU tokens, every recorded count at least 1, its total
equal to the sum of the counts, and its matched-parts list equal to the
key list of the count map. -/
theorem C7_report_invariants (fru_list frags : List String) (eol_url : String) :
    (∀ p ∈ (crossReference fru_list frags eol_url).eol_list,
        p.1 ∈ fru_list ∧ 1 ≤ p.2)
    ∧ (crossReference fru_list frags eol_url).total_eol_components
        = ((crossReference fru_list frags eol_url).eol_list.map (fun p => p.2)).sum
    ∧ (crossReference fru_list frags eol_url).eol_parts_found
        = (crossReference fru_list frags eol_url).eol_list.map (fun p => p.1) := by
  exact ⟨eolList_inv fru_list frags, rfl, rfl⟩

/-- C7 witness at a concrete report. -/
theorem C7_witness : "CHAS-MX104-S" ∈ ["CHAS-MX104-S"] ∧ 1 ≤ 1 :=
  (C7_report_invariants ["CHAS-MX104-S"] ["CHAS-MX104-S"] "u").1
    ("CHAS-MX104-S", 1) (by decide)

/-- C3 (code bug): on every successful page fetch the pipeline raises an
unhandled `TypeError` instead of returning a value — the `async`
function `extract_sw_eol_tables` is called without `await` at line 185,
so line 195 iterates a coroutine object. -/
theorem C3_success_raises (hw_inventory page eol_url : String) :
    analyse_inventory_internal hw_inventory (.success page) eol_url
      = .error .typeError := rfl

/-- C5: when the fetch fails, the pipeline returns the retrieval-error
value carrying the complete FRU token sequence extracted from the
inventory text, and never a match report. -/
theorem C5_retrieval_error (hw_inventory err eol_url : String) :
    analyse_inventory_internal hw_inventory (.failure err) eol_url
      = .ok (.errorReport err (extractFrus hw_inventory))
    ∧ ∀ r : MatchReport,
        analyse_inventory_internal hw_inventory (.failure err) eol_url
          ≠ .ok (.report r) :=
  ⟨rfl, fun _ h => ToolReturn.noConfusion (Except.ok.inj h)⟩

/-- C5 witness at a concrete inventory and error. -/
theorem C5_witness :
    analyse_inventory_internal "Midplane REV 57 CHAS-MX104-S" (.failure "timeout") "u"
      ≠ .ok (.report (crossReference [] [] "u")) :=
  (C5_retrieval_error "Midplane REV 57 CHAS-MX104-S" "timeout" "u").2
    (crossReference [] [] "u")

/-- C6 (code bug): a page with zero extractable fragments does not
produce the distinct no-EOL-data return value (`return 1`, modelled as
`ToolReturn.noTables`); because the un-awaited coroutine bound to
`tables_eol` is truthy, the zero-fragments branch is unreachable and
the call raises `TypeError` instead. -/
theorem C6_no_fragments_raises :
    extract_sw_eol_tables "" = []
    ∧ analyse_inventory_internal "" (.success "") "u" = .error .typeError
    ∧ (Except.error PyExc.typeError : Except PyExc ToolReturn)
        ≠ .ok .noTables :=
  ⟨rfl, rfl, fun h => Except.noConfusion h⟩

theorem wordsAux_nil_of_all_ws (l : List Char) (h : ∀ c ∈ l, isWs c = true) :
    wordsAux l [] = [] := by
  induction l with
  | nil => rfl
  | cons c rest ih =>
    have hc : isWs c = true := h c (List.mem_cons_self _ _)
    simp only [wordsAux, hc, if_true, List.isEmpty_nil]
    exact ih (fun x hx => h x (List.mem_cons_of_mem _ hx))

theorem pySplitWs_nil_of_strip_empty (line : String) (h : pyStrip line = "") :
    pySplitWs line = [] := by
  have hdata : ((line.data.dropWhile isWs).reverse.dropWhile isWs).reverse = [] := by
    have := congrArg String.data h
    simpa [pyStrip] using this
  have h2 : (line.data.dropWhile isWs).reverse.dropWhile isWs = [] := by
    rwa [List.reverse_eq_nil_iff] at hdata
  have h3 : ∀ c ∈ (line.data.dropWhile isWs).reverse, isWs c = true :=
    List.dropWhile_eq_nil_iff.mp h2
  have h4 : ∀ c ∈ line.data.dropWhile isWs, isWs c = true := by
    intro c hc
    exact h3 c (List.mem_reverse.mpr hc)
  have h5 : ∀ c ∈ line.data, isWs c = true := by
    intro c hc
    rcases List.mem_append.mp
        ((List.takeWhile_append_dropWhile isWs line.data) ▸ hc) with h | h
    · exact List.mem_takeWhile_imp h
    · exact h4 c h
  unfold pySplitWs
  rw [wordsAux_nil_of_all_ws line.data h5]
  rfl

theorem isAZ09_dash_false : isAZ09 '-' = false := by decide

theorem isFruToken_iff (s : String) : isFruToken s = true ↔ FruGrammar s := by
  constructor
  · intro h
    unfold isFruToken at h
    cases hd : s.data.dropWhile isAZ09 with
    | nil => rw [hd] at h; simp at h
    | cons c b =>
      rw [hd] at h
      split at h
      · rename_i b' heq
        injection heq with hc hb
        subst hc
        subst hb
        simp only [Bool.and_eq_true, List.isEmpty_eq_false, Bool.not_eq_true',
          List.all_eq_true] at h
        obtain ⟨⟨ha, hb⟩, hall⟩ := h
        refine ⟨s.data.takeWhile isAZ09, b, ?_, ha, ?_, hb, hall⟩
        · conv_lhs => rw [← List.takeWhile_append_dropWhile isAZ09 s.data, hd]
        · exact fun x hx => List.mem_takeWhile_imp hx
      · exact Bool.noConfusion h
  · rintro ⟨a, b, hdata, hane, haall, hbne, hball⟩
    have htake : s.data.takeWhile isAZ09 = a := by
      rw [hdata, List.takeWhile_append_of_pos haall,
        List.takeWhile_cons_of_neg (by simp [isAZ09_dash_false]), List.append_nil]
    have hdrop : s.data.dropWhile isAZ09 = '-' :: b := by
      rw [hdata, List.dropWhile_append_of_pos haall,
        List.dropWhile_cons_of_neg (by simp [isAZ09_dash_false])]
    have ha' : a.isEmpty = false := List.isEmpty_eq_false.mpr hane
    have hb' : b.isEmpty = false := List.isEmpty_eq_false.mpr hbne
    unfold isFruToken
    rw [hdrop, htake, ha']
    split
    · rename_i b' heq
      injection heq with _ hb2
      subst hb2
      rw [hb']
      simp only [Bool.not_false, Bool.true_and, List.all_eq_true]
      exact hball
    · rename_i hne
      exact absurd rfl (hne b)

theorem extractFrus_eq (hw : String) :
    extractFrus hw = (pySplitChar '\n' hw).filterMap
      (fun line => ((pySplitWs line).getLast?).bind
        (fun last => if isFruToken last then some last else none)) := by
  unfold extractFrus
  congr 1
  funext line
  unfold lineToken
  by_cases h : pyStrip line = ""
  · rw [if_pos h, pySplitWs_nil_of_strip_empty line h]
    rfl
  · rw [if_neg h]
    cases (pySplitWs line).getLast? <;> rfl

/-- C4: the FRU token sequence is exactly the last whitespace-delimited
field of each line whose last field fully satisfies the grammar
`^[A-Z0-9]+-[A-Z0-9-]+$`, in original line order with duplicates
preserved; non-matching fields never appear.  The executable matcher is
proved equivalent to the declarative anchored grammar, and the
extractor equal to the per-line filterMap of that test. -/
theorem C4_fru_extraction :
    (∀ s : String, isFruToken s = true ↔ FruGrammar s)
    ∧ ∀ hw_inventory : String,
        extractFrus hw_inventory = (pySplitChar '\n' hw_inventory).filterMap
          (fun line => ((pySplitWs line).getLast?).bind
            (fun last => if isFruToken last then some last else none)) :=
  ⟨isFruToken_iff, extractFrus_eq⟩

/-- C4 witness: the sample FRU model number satisfies the grammar. -/
theorem C4_witness : FruGrammar "CHAS-MX104-S" :=
  (C4_fru_extraction.1 "CHAS-MX104-S").mp (by rfl)

/-- C9: on the parsed tree of a table with header labels `Model`,`Date`
and one body row, table extraction yields exactly that row object; with
an empty body section it yields no rows; and in general rows that
populate no field are dropped from the output. -/
theorem C9_table_rows :
    parse_eol_table_html sampleTable
      = [[("Model", CellValue.str "CHAS-MX104-S"), ("Date", CellValue.str "2020-01-01")]]
    ∧ parse_eol_table_html emptyBodyTable = []
    ∧ ∀ (doc : HDoc) (row : List (String × CellValue)),
        row ∈ parse_eol_table_html doc → row ≠ [] := by
  refine ⟨by rfl, by rfl, ?_⟩
  intro doc row h
  unfold parse_eol_table_html at h
  split at h
  · exact absurd h (List.not_mem_nil row)
  · split at h
    · exact absurd h (List.not_mem_nil row)
    · have := List.of_mem_filter h
      exact of_decide_eq_true this

/-- C9 witness: the concrete extracted row object is nonempty. -/
theorem C9_witness :
    [("Model", CellValue.str "CHAS-MX104-S"), ("Date", CellValue.str "2020-01-01")]
      ≠ ([] : List (String × CellValue)) :=
  C9_table_rows.2.2 sampleTable
    [("Model", CellValue.str "CHAS-MX104-S"), ("Date", CellValue.str "2020-01-01")]
    (by decide)

theorem expectChar_eq_some {c : Char} {l r : List Char} :
    expectChar c l = some r ↔ l = c :: r := by
  cases l with
  | nil => simp [expectChar]
  | cons d rest =>
    by_cases h : d = c
    · subst h
      simp [expectChar]
    · simp [expectChar, h]

theorem expectLit_eq_some {lit : List Char} :
    ∀ {l r : List Char}, expectLit lit l = some r ↔ l = lit ++ r := by
  induction lit with
  | nil => intro l r; simp [expectLit]
  | cons c cs ih =>
    intro l r
    cases l with
    | nil => simp [expectLit]
    | cons d rest =>
      by_cases h : d = c
      · subst h
        simp [expectLit, ih]
      · simp [expectLit, h]

theorem WsL_takeWhile (l : List Char) : WsL (l.takeWhile isWs) :=
  fun _ hc => List.mem_takeWhile_imp hc

theorem skipWs_split (l : List Char) : l = l.takeWhile isWs ++ skipWs l :=
  (List.takeWhile_append_dropWhile isWs l).symm

theorem skipWs_ws_cons {w : List Char} (hw : WsL w) {d : Char} (hd : isWs d = false)
    (t : List Char) : skipWs (w ++ d :: t) = d :: t := by
  induction w with
  | nil =>
    simp only [List.nil_append, skipWs]
    exact List.dropWhile_cons_of_neg (by simp [hd])
  | cons c w ih =>
    have hc : isWs c = true := hw c (List.mem_cons_self _ _)
    simp only [List.cons_append, skipWs, List.dropWhile_cons_of_pos hc]
    exact ih (fun x hx => hw x (List.mem_cons_of_mem _ hx))

theorem afterChar_some {ch : Char} {l r : List Char} (h : afterChar ch l = some r) :
    ∃ w, WsL w ∧ l = w ++ ch :: r := by
  unfold afterChar at h
  rw [expectChar_eq_some] at h
  exact ⟨l.takeWhile isWs, WsL_takeWhile l, by rw [← h]; exact skipWs_split l⟩

theorem afterChar_complete {w : List Char} (hw : WsL w) {ch : Char}
    (hch : isWs ch = false) (r : List Char) : afterChar ch (w ++ ch :: r) = some r := by
  unfold afterChar
  rw [skipWs_ws_cons hw hch]
  exact expectChar_eq_some.mpr rfl

theorem afterLit_some {lit : List Char} {l r : List Char} (h : afterLit lit l = some r) :
    ∃ w, WsL w ∧ l = w ++ (lit ++ r) := by
  unfold afterLit at h
  rw [expectLit_eq_some] at h
  exact ⟨l.takeWhile isWs, WsL_takeWhile l, by rw [← h]; exact skipWs_split l⟩

theorem afterLit_complete {w : List Char} (hw : WsL w) {d : Char} {lit : List Char}
    (hd : isWs d = false) (r : List Char) :
    afterLit (d :: lit) (w ++ (d :: lit ++ r)) = some r := by
  unfold afterLit
  have : (d :: lit ++ r) = d :: (lit ++ r) := rfl
  rw [this, skipWs_ws_cons hw hd]
  exact expectLit_eq_some.mpr rfl

theorem takeWhile_all_append {p : Char → Bool} {g : List Char}
    (hg : ∀ x ∈ g, p x = true) (t : List Char) :
    (g ++ t).takeWhile p = g ++ t.takeWhile p :=
  List.takeWhile_append_of_pos hg

theorem dropWhile_all_append {p : Char → Bool} {g : List Char}
    (hg : ∀ x ∈ g, p x = true) (t : List Char) :
    (g ++ t).dropWhile p = t.dropWhile p :=
  List.dropWhile_append_of_pos hg

theorem all_of_take_le_takeWhile {p : Char → Bool} :
    ∀ (l : List Char) (d : Nat), d ≤ (l.takeWhile p).length →
      ∀ x ∈ l.take d, p x = true := by
  intro l
  induction l with
  | nil => intro d _ x hx; simp at hx
  | cons c rest ih =>
    intro d hd x hx
    cases d with
    | zero => simp at hx
    | succ d =>
      by_cases hc : p c = true
      · rw [List.takeWhile_cons_of_pos hc] at hd
        simp only [List.length_cons, Nat.succ_le_succ_iff] at hd
        rw [List.take_succ_cons] at hx
        rcases List.mem_cons.mp hx with rfl | hx
        · exact hc
        · exact ih d hd x hx
      · rw [List.takeWhile_cons_of_neg hc] at hd
        simp at hd
  
theorem length_le_takeWhile_of_all {p : Char → Bool} {g : List Char}
    (hg : ∀ x ∈ g, p x = true) (t : List Char) :
    g.length ≤ ((g ++ t).takeWhile p).length := by
  rw [takeWhile_all_append hg t, List.length_append]
  exact Nat.le_add_right _ _

theorem findSome?_eq_some_ex {α β : Type} {f : α → Option β} :
    ∀ {xs : List α} {y : β}, xs.findSome? f = some y → ∃ x ∈ xs, f x = some y := by
  intro xs
  induction xs with
  | nil => intro y h; simp [List.findSome?] at h
  | cons a as ih =>
    intro y h
    rw [List.findSome?_cons] at h
    cases hf : f a with
    | some b =>
      simp only [hf] at h
      exact ⟨a, List.mem_cons_self _ _, by rw [hf, h]⟩
    | none =>
      simp only [hf] at h
      obtain ⟨x, hx, hfx⟩ := ih h
      exact ⟨x, List.mem_cons_of_mem _ hx, hfx⟩

theorem findSome?_ne_none_of_mem {α β : Type} {f : α → Option β} {xs : List α}
    {x : α} (hx : x ∈ xs) {y : β} (hf : f x = some y) : xs.findSome? f ≠ none := by
  induction xs with
  | nil => simp at hx
  | cons a as ih =>
    rw [List.findSome?_cons]
    rcases List.mem_cons.mp hx with rfl | hmem
    · rw [hf]
      exact fun h => Option.noConfusion h
    · cases hf2 : f a with
      | some b => simp
      | none => simpa using ih hmem

theorem matchHead_sound {l s : List Char} (h : matchHead l = some s) :
    ∃ w1 w2 w3 w4 w5 w6 w7, WsL w1 ∧ WsL w2 ∧ WsL w3 ∧ WsL w4 ∧ WsL w5 ∧ WsL w6 ∧ WsL w7
      ∧ l = '\x7b' :: (w1 ++ (LSel ++ (w2 ++ (':' :: (w3 ++ (LSwe ++ (w4 ++ (',' ::
        (w5 ++ (LProps ++ (w6 ++ (':' :: (w7 ++ ('\x7b' :: s)))))))))))))) := by
  unfold matchHead at h
  rw [Option.bind_eq_some] at h
  obtain ⟨l1, h1, h⟩ := h
  rw [Option.bind_eq_some] at h
  obtain ⟨l2, h2, h⟩ := h
  rw [Option.bind_eq_some] at h
  obtain ⟨l3, h3, h⟩ := h
  rw [Option.bind_eq_some] at h
  obtain ⟨l4, h4, h⟩ := h
  rw [Option.bind_eq_some] at h
  obtain ⟨l5, h5, h⟩ := h
  rw [Option.bind_eq_some] at h
  obtain ⟨l6, h6, h⟩ := h
  rw [Option.bind_eq_some] at h
  obtain ⟨l7, h7, h⟩ := h
  rw [expectChar_eq_some] at h1
  obtain ⟨w1, hw1, he1⟩ := afterLit_some h2
  obtain ⟨w2, hw2, he2⟩ := afterChar_some h3
  obtain ⟨w3, hw3, he3⟩ := afterLit_some h4
  obtain ⟨w4, hw4, he4⟩ := afterChar_some h5
  obtain ⟨w5, hw5, he5⟩ := afterLit_some h6
  obtain ⟨w6, hw6, he6⟩ := afterChar_some h7
  obtain ⟨w7, hw7, he7⟩ := afterChar_some h
  refine ⟨w1, w2, w3, w4, w5, w6, w7, hw1, hw2, hw3, hw4, hw5, hw6, hw7, ?_⟩
  rw [h1, he1, he2, he3, he4, he5, he6, he7]

theorem afterLit_LSel {w : List Char} (hw : WsL w) (r : List Char) :
    afterLit LSel (w ++ (LSel ++ r)) = some r := afterLit_complete hw (by decide) r

theorem afterLit_LSwe {w : List Char} (hw : WsL w) (r : List Char) :
    afterLit LSwe (w ++ (LSwe ++ r)) = some r := afterLit_complete hw (by decide) r

theorem afterLit_LProps {w : List Char} (hw : WsL w) (r : List Char) :
    afterLit LProps (w ++ (LProps ++ r)) = some r := afterLit_complete hw (by decide) r

theorem matchHead_complete {w1 w2 w3 w4 w5 w6 w7 : List Char}
    (hw1 : WsL w1) (hw2 : WsL w2) (hw3 : WsL w3) (hw4 : WsL w4) (hw5 : WsL w5)
    (hw6 : WsL w6) (hw7 : WsL w7) {s : List Char} :
    matchHead ('\x7b' :: (w1 ++ (LSel ++ (w2 ++ (':' :: (w3 ++ (LSwe ++ (w4 ++ (',' ::
      (w5 ++ (LProps ++ (w6 ++ (':' :: (w7 ++ ('\x7b' :: s))))))))))))))) = some s := by
  unfold matchHead
  rw [expectChar_eq_some.mpr rfl, Option.some_bind]
  rw [afterLit_LSel hw1 _, Option.some_bind]
  rw [afterChar_complete hw2 (by decide) _, Option.some_bind]
  rw [afterLit_LSwe hw3 _, Option.some_bind]
  rw [afterChar_complete hw4 (by decide) _, Option.some_bind]
  rw [afterLit_LProps hw5 _, Option.some_bind]
  rw [afterChar_complete hw6 (by decide) _, Option.some_bind]
  exact afterChar_complete hw7 (by decide) s

theorem matchTail_sound {l c r : List Char} (h : matchTail l = some (c, r)) :
    ∃ w8 w9 w10 w11, WsL w8 ∧ WsL w9 ∧ WsL w10 ∧ WsL w11 ∧ (∀ x ∈ c, x ≠ '\x27')
      ∧ l = LHtml ++ (w8 ++ (':' :: (w9 ++ ('\x27' :: (c ++ ('\x27' :: (w10 ++ ('\x7d' ::
          (w11 ++ ('\x7d' :: r)))))))))) := by
  unfold matchTail at h
  rw [Option.bind_eq_some] at h
  obtain ⟨l1, h1, h⟩ := h
  rw [Option.bind_eq_some] at h
  obtain ⟨l2, h2, h⟩ := h
  rw [Option.bind_eq_some] at h
  obtain ⟨l3, h3, h⟩ := h
  rw [Option.bind_eq_some] at h
  obtain ⟨l4, h4, h⟩ := h
  rw [Option.bind_eq_some] at h
  obtain ⟨l5, h5, h⟩ := h
  rw [Option.map_eq_some'] at h
  obtain ⟨l6, h6, hcr⟩ := h
  rw [expectLit_eq_some] at h1
  obtain ⟨w8, hw8, he2⟩ := afterChar_some h2
  obtain ⟨w9, hw9, he3⟩ := afterChar_some h3
  rw [expectChar_eq_some] at h4
  obtain ⟨w10, hw10, he5⟩ := afterChar_some h5
  obtain ⟨w11, hw11, he6⟩ := afterChar_some h6
  have hc : c = l3.takeWhile notQuote := by
    have := congrArg Prod.fst hcr
    simpa using this.symm
  have hr : r = l6 := by
    have := congrArg Prod.snd hcr
    simpa using this.symm
  have hl3 : l3 = c ++ '\x27' :: l4 := by
    conv_lhs => rw [← List.takeWhile_append_dropWhile notQuote l3]
    rw [← hc, h4]
  refine ⟨w8, w9, w10, w11, hw8, hw9, hw10, hw11, ?_, ?_⟩
  · intro x hx
    rw [hc] at hx
    have := List.mem_takeWhile_imp hx
    exact of_decide_eq_true this
  · rw [h1, he2, he3, hl3, he5, he6, hr]

theorem matchTail_complete {w8 w9 w10 w11 : List Char}
    (hw8 : WsL w8) (hw9 : WsL w9) (hw10 : WsL w10) (hw11 : WsL w11) {c : List Char}
    (hc : ∀ x ∈ c, x ≠ '\x27') (r : List Char) :
    matchTail (LHtml ++ (w8 ++ (':' :: (w9 ++ ('\x27' :: (c ++ ('\x27' :: (w10 ++
      ('\x7d' :: (w11 ++ ('\x7d' :: r))))))))))) = some (c, r) := by
  have hall : ∀ x ∈ c, notQuote x = true :=
    fun x hx => decide_eq_true (hc x hx)
  have htw : (c ++ ('\x27' :: (w10 ++ ('\x7d' :: (w11 ++ ('\x7d' :: r)))))).takeWhile
      notQuote = c := by
    rw [takeWhile_all_append hall, List.takeWhile_cons_of_neg (by decide), List.append_nil]
  have hdw : (c ++ ('\x27' :: (w10 ++ ('\x7d' :: (w11 ++ ('\x7d' :: r)))))).dropWhile
      notQuote = '\x27' :: (w10 ++ ('\x7d' :: (w11 ++ ('\x7d' :: r)))) := by
    rw [dropWhile_all_append hall, List.dropWhile_cons_of_neg (by decide)]
  unfold matchTail
  rw [expectLit_eq_some.mpr rfl, Option.some_bind]
  rw [afterChar_complete hw8 (by decide) _, Option.some_bind]
  rw [afterChar_complete hw9 (by decide) _, Option.some_bind]
  rw [hdw, expectChar_eq_some.mpr rfl, Option.some_bind]
  rw [afterChar_complete hw10 (by decide) _, Option.some_bind]
  rw [afterChar_complete hw11 (by decide) _]
  simp [htw]

theorem bridge_sound {l c r : List Char} (h : bridge l = some (c, r)) :
    ∃ gap t, (∀ x ∈ gap, x ≠ '\x7d') ∧ matchTail t = some (c, r) ∧ l = gap ++ t := by
  unfold bridge at h
  obtain ⟨d, hd, hft⟩ := findSome?_eq_some_ex h
  have hdle : d ≤ (l.takeWhile notBrace).length := by
    have h1 := List.mem_range.mp (List.mem_reverse.mp hd)
    omega
  refine ⟨l.take d, l.drop d, ?_, hft, (List.take_append_drop d l).symm⟩
  intro x hx
  exact of_decide_eq_true (all_of_take_le_takeWhile l d hdle x hx)

theorem bridge_complete {gap t : List Char} (hgap : ∀ x ∈ gap, x ≠ '\x7d')
    {c r : List Char} (ht : matchTail t = some (c, r)) :
    bridge (gap ++ t) ≠ none := by
  unfold bridge
  have hall : ∀ x ∈ gap, notBrace x = true :=
    fun x hx => decide_eq_true (hgap x hx)
  have hmem : gap.length ∈ (List.range
      (((gap ++ t).takeWhile notBrace).length + 1)).reverse := by
    rw [List.mem_reverse, List.mem_range]
    have := length_le_takeWhile_of_all hall t
    omega
  have hf : matchTail ((gap ++ t).drop gap.length) = some (c, r) := by
    rw [List.drop_left]
    exact ht
  exact findSome?_ne_none_of_mem hmem hf

theorem matchAt_sound {l c r : List Char} (h : matchAt l = some (c, r)) :
    ∃ m, Occurrence m c ∧ l = m ++ r := by
  unfold matchAt at h
  rw [Option.bind_eq_some] at h
  obtain ⟨s, hh, hb⟩ := h
  obtain ⟨w1, w2, w3, w4, w5, w6, w7, hw1, hw2, hw3, hw4, hw5, hw6, hw7, hl⟩ :=
    matchHead_sound hh
  obtain ⟨gap, t, hgap, ht, hs⟩ := bridge_sound hb
  obtain ⟨w8, w9, w10, w11, hw8, hw9, hw10, hw11, hnc, htl⟩ := matchTail_sound ht
  refine ⟨_, ⟨w1, w2, w3, w4, w5, w6, w7, gap, w8, w9, w10, w11, rfl, hw1, hw2, hw3,
    hw4, hw5, hw6, hw7, hw8, hw9, hw10, hw11, hgap, hnc⟩, ?_⟩
  rw [hl, hs, htl]
  simp only [List.cons_append, List.append_assoc, List.nil_append, List.singleton_append]

theorem matchAt_complete {l : List Char} (h : PatternAt l) : matchAt l ≠ none := by
  obtain ⟨m, c, rest, hl, hocc⟩ := h
  obtain ⟨w1, w2, w3, w4, w5, w6, w7, gap, w8, w9, w10, w11, hm, hw1, hw2, hw3, hw4,
    hw5, hw6, hw7, hw8, hw9, hw10, hw11, hgap, hnc⟩ := hocc
  subst hm
  subst hl
  unfold matchAt
  simp only [List.cons_append, List.append_assoc, List.nil_append, List.singleton_append]
  rw [matchHead_complete hw1 hw2 hw3 hw4 hw5 hw6 hw7, Option.some_bind]
  exact bridge_complete hgap (matchTail_complete hw8 hw9 hw10 hw11 hnc rest)

theorem FindAll_nil_inv {l : List Char} (h : FindAll l []) :
    ∀ i, ¬ PatternAt (l.drop i) := by
  cases h with
  | nil _ hall => exact hall

theorem FindAll_cons {ch : Char} {l : List Char} {cs : List (List Char)}
    (hnp : ¬ PatternAt (ch :: l)) (h : FindAll l cs) : FindAll (ch :: l) cs := by
  cases h with
  | nil _ hall =>
    refine FindAll.nil _ ?_
    intro i
    cases i with
    | zero => simpa using hnp
    | succ i => simpa [List.drop_succ_cons] using hall i
  | cons g m rest c cs hgap hocc hrest =>
    have hsh : ch :: (g ++ (m ++ rest)) = (ch :: g) ++ (m ++ rest) := rfl
    rw [hsh]
    refine FindAll.cons (ch :: g) m rest c cs ?_ hocc hrest
    intro i hi
    cases i with
    | zero => simpa using hnp
    | succ i =>
      have hi' : i < g.length := by simpa using hi
      simpa [List.drop_succ_cons] using hgap i hi'

theorem occurrence_head {m c : List Char} (h : Occurrence m c) :
    ∃ t, m = '\x7b' :: t := by
  obtain ⟨w1, w2, w3, w4, w5, w6, w7, gap, w8, w9, w10, w11, hm, -⟩ := h
  exact ⟨_, hm⟩

theorem scan_sound : ∀ (fuel : Nat) (l : List Char), l.length < fuel →
    FindAll l (scanAux fuel l) := by
  intro fuel
  induction fuel with
  | zero => intro l h; omega
  | succ fuel ih =>
    intro l hl
    cases l with
    | nil =>
      refine FindAll.nil _ ?_
      intro i
      rintro ⟨m, c, rest, hm, hocc⟩
      obtain ⟨t, ht⟩ := occurrence_head hocc
      rw [List.drop_nil] at hm
      subst ht
      simp at hm
    | cons ch rest =>
      cases hma : matchAt (ch :: rest) with
      | some p =>
        obtain ⟨c, after⟩ := p
        obtain ⟨m, hocc, heq⟩ := matchAt_sound hma
        have hlen : after.length < fuel := by
          obtain ⟨t, ht⟩ := occurrence_head hocc
          subst ht
          have := congrArg List.length heq
          simp only [List.length_cons, List.length_append] at this
          simp only [List.length_cons] at hl
          omega
        have hrec := ih after hlen
        have hgap0 : ∀ i < ([] : List Char).length,
            ¬ PatternAt ((([] : List Char) ++ (m ++ after)).drop i) := by
          intro i hi
          simp at hi
        have hres := FindAll.cons [] m after c (scanAux fuel after) hgap0 hocc hrec
        have hshow : scanAux (fuel + 1) (ch :: rest) = c :: scanAux fuel after := by
          show (match matchAt (ch :: rest) with
            | some (c, after) => c :: scanAux fuel after
            | none => scanAux fuel rest) = c :: scanAux fuel after
          rw [hma]
        rw [hshow, heq]
        simpa using hres
      | none =>
        have hnp : ¬ PatternAt (ch :: rest) := fun hp => matchAt_complete hp hma
        have hrec := ih rest (by
          simp only [List.length_cons] at hl
          omega)
        have hshow : scanAux (fuel + 1) (ch :: rest) = scanAux fuel rest := by
          show (match matchAt (ch :: rest) with
            | some (c, after) => c :: scanAux fuel after
            | none => scanAux fuel rest) = scanAux fuel rest
          rw [hma]
        rw [hshow]
        exact FindAll_cons hnp hrec

theorem scan_none : ∀ (fuel : Nat) (l : List Char),
    (∀ i, matchAt (l.drop i) = none) → scanAux fuel l = [] := by
  intro fuel
  induction fuel with
  | zero => intro l _; rfl
  | succ fuel ih =>
    intro l hall
    cases l with
    | nil => rfl
    | cons ch rest =>
      have h0 := hall 0
      rw [List.drop_zero] at h0
      have hshow : scanAux (fuel + 1) (ch :: rest) = scanAux fuel rest := by
        show (match matchAt (ch :: rest) with
          | some (c, after) => c :: scanAux fuel after
          | none => scanAux fuel rest) = scanAux fuel rest
        rw [h0]
      rw [hshow]
      exact ih rest (fun i => by
        have := hall (i + 1)
        rwa [List.drop_succ_cons] at this)

/-- C8: the fragment extractor is a left-to-right scan for the
`sw-eol-table` structural pattern: its output decomposes the page into
non-overlapping pattern instances in order of first character position,
each fragment being the `htmlContent` captured by its own instance,
chosen at the leftmost position where any instance starts; the output
is empty exactly when no position of the page starts an instance (in
particular any page yields a value, never an error).  Embedded newlines
are ordinary characters of the capture class `[^']` and of `[^}]`, so
content spanning lines is matched. -/
theorem C8_fragment_scan (page : String) :
    FindAll page.data ((extract_sw_eol_tables page).map String.data)
    ∧ (extract_sw_eol_tables page = [] ↔ ∀ i, ¬ PatternAt (page.data.drop i)) := by
  have hmap : (extract_sw_eol_tables page).map String.data
      = scanAux (page.data.length + 1) page.data := by
    unfold extract_sw_eol_tables
    rw [List.map_map]
    have hid : (String.data ∘ String.mk) = id := by funext l; rfl
    rw [hid, List.map_id]
  constructor
  · rw [hmap]
    exact scan_sound _ _ (Nat.lt_succ_self _)
  · constructor
    · intro hnil i
      have hz : scanAux (page.data.length + 1) page.data = [] := by
        rw [← hmap, hnil]
        rfl
      have hfa := scan_sound (page.data.length + 1) page.data (Nat.lt_succ_self _)
      rw [hz] at hfa
      exact FindAll_nil_inv hfa i
    · intro hall
      have hnone : ∀ i, matchAt (page.data.drop i) = none := by
        intro i
        cases hm : matchAt (page.data.drop i) with
        | none => rfl
        | some p =>
          obtain ⟨c, r⟩ := p
          obtain ⟨m, hocc, heq⟩ := matchAt_sound hm
          exact absurd ⟨m, c, r, heq, hocc⟩ (hall i)
      unfold extract_sw_eol_tables
      rw [scan_none _ _ hnone]
      rfl

/-- C8 witness: a page with no occurrence of the pattern. -/
theorem C8_witness : ¬ PatternAt ("abc".data.drop 0) :=
  (C8_fragment_scan "abc").2.mp (by rfl) 0

theorem scanAux_no_quote : ∀ (fuel : Nat) (l : List Char) (c : List Char),
    c ∈ scanAux fuel l → ∀ x ∈ c, x ≠ '\x27' := by
  intro fuel
  induction fuel with
  | zero => intro l c hc; simp [scanAux] at hc
  | succ fuel ih =>
    intro l c hc
    cases l with
    | nil => simp [scanAux] at hc
    | cons ch rest =>
      revert hc
      show c ∈ (match matchAt (ch :: rest) with
        | some (cap, after) => cap :: scanAux fuel after
        | none => scanAux fuel rest) → _
      cases hma : matchAt (ch :: rest) with
      | some p =>
        obtain ⟨cap, after⟩ := p
        intro hc
        rcases List.mem_cons.mp hc with rfl | hc
        · obtain ⟨m, hocc, -⟩ := matchAt_sound hma
          obtain ⟨w1, w2, w3, w4, w5, w6, w7, gap, w8, w9, w10, w11, hm, hw1, hw2,
            hw3, hw4, hw5, hw6, hw7, hw8, hw9, hw10, hw11, hgap, hnc⟩ := hocc
          exact hnc
        · exact ih after c hc
      | none =>
        intro hc
        exact ih rest c hc

/-- C10 (amended): an occurrence whose `htmlContent` value contains a
single quote, or whose properties object contains a closing brace
before the `htmlContent` field, is never matched with that value: no
returned fragment ever contains a single quote, so such an occurrence's
full content never appears in the output, and no error is produced; a
quote-free brace-free prefix of the occurrence may however still match
as a shorter instance of the pattern. -/
theorem C10_quote_brace_exclusion :
    (∀ (page frag : String), frag ∈ extract_sw_eol_tables page →
        ∀ x ∈ frag.data, x ≠ '\x27')
    ∧ extract_sw_eol_tables (mkOccPage "A\x27B") = []
    ∧ extract_sw_eol_tables bracePage = []
    ∧ extract_sw_eol_tables bracePageFixed = ["A"] := by
  refine ⟨?_, by rfl, by rfl, by rfl⟩
  intro page frag hf
  unfold extract_sw_eol_tables at hf
  obtain ⟨c, hc, hmk⟩ := List.mem_map.mp hf
  subst hmk
  exact scanAux_no_quote _ _ c hc

/-- C10 counterexample: a single well-formed occurrence whose
`htmlContent` value contains a single quote from which the extractor
still produces a (truncated) fragment. -/
theorem C10_counterexample :
    ('\x27' ∈ ("A\x27 \x7d \x7d" : String).data)
    ∧ extract_sw_eol_tables (mkOccPage "A\x27 \x7d \x7d") = ["A"] :=
  ⟨by decide, by rfl⟩

/-- C10 witness: the fragment returned from `bracePageFixed` contains no
single quote. -/
theorem C10_witness : ('A' : Char) ≠ '\x27' :=
  C10_quote_brace_exclusion.1 bracePageFixed "A" (by decide) 'A' (by decide)
